import Mathlib

/-
Verification of the recipient cache-synchronization pipeline
(`src/app/ui/services/autocompleteSyncModel.js`).

JavaScript objects used as records are embedded as association lists of
(field name, value) pairs, where a spread `{...a, ...b}` is list append and
field access takes the last binding (later spreads override earlier ones).
External collaborators (the preference service, the auto-pin / resign
confirmation prompts, the typo checker, the key-invalidity oracle, the PGP
metadata extender, and the email regex constant) are modelled as a bundle of
deterministic response functions.  Collaborator invocations are recorded in an
explicit event trace so that "the collaborator is never invoked" statements
are expressible.  The mutable per-message `CACHE` object is threaded as
explicit state; since a thrown exception leaves a mutable object intact, every
operation returns the cache state on the error path as well.
-/

set_option autoImplicit false

namespace AutocompleteSyncModel

/-- A JavaScript value as far as this module observes them: `undefined`,
a string, or a boolean. Absent object fields read as `undef`. -/
inductive Value where
  | undef
  | vstr (s : String)
  | vbool (b : Bool)
  deriving DecidableEq, Repr

/-- JavaScript truthiness for the values we model (`undefined`, `""` and
`false` are falsy). -/
def truthy : Value → Bool
  | Value.undef => false
  | Value.vstr s => !(s == "")
  | Value.vbool b => b

/-- Coercion of a value to a JavaScript property key (`String(v)`), as in
`CACHE[Address]` or `sendPreferencesMap[email.Address]`. -/
def propKey : Value → String
  | Value.undef => "undefined"
  | Value.vstr s => s
  | Value.vbool b => if b then "true" else "false"

/-- A JavaScript object record: association list of fields; a later binding
for the same key overrides an earlier one (spread semantics). -/
abbrev Rec := List (String × Value)

/-- Field access `r.k`: value of the last binding of `k`, `undef` if absent. -/
def getField (r : Rec) (k : String) : Value :=
  r.foldl (fun acc p => if p.1 == k then p.2 else acc) Value.undef

/-- Does the record carry an own binding for field `k`? -/
def hasField (r : Rec) (k : String) : Bool :=
  r.any (fun p => p.1 == k)

/-- A per-address preference record from the external preference service;
only the two policy flags are observed by this module. -/
structure PrefRec where
  primaryPinned : Value
  isVerified : Value
  deriving DecidableEq, Repr

/-- The `PreferenceMap`: a JavaScript object keyed by address string. -/
abbrev Prefs := List (String × PrefRec)

/-- `sendPreferencesMap[a]` with JavaScript property-key coercion. -/
def prefsLookup (m : Prefs) (a : Value) : Option PrefRec :=
  (m.find? (fun p => p.1 == propKey a)).map (fun p => p.2)

/-- The session cache: a JavaScript object keyed by address string. -/
abbrev Cache := List (String × Rec)

/-- `CACHE[k]` read access. -/
def cacheGet (c : Cache) (k : String) : Option Rec :=
  (c.find? (fun p => p.1 == k)).map (fun p => p.2)

/-- `CACHE[k] = v`: in-place overwrite when the key exists, append otherwise. -/
def cacheSet (c : Cache) (k : String) (v : Rec) : Cache :=
  if c.any (fun p => p.1 == k) then
    c.map (fun p => if p.1 == k then (k, v) else p)
  else
    c ++ [(k, v)]

/-- `delete CACHE[k]`. -/
def cacheDel (c : Cache) (k : String) : Cache :=
  c.filter (fun p => !(p.1 == k))

/-- Observable collaborator invocations and the final cache mutation of one
`sync` call. -/
inductive Event where
  | getPrefsCall (addrs : List Value)
  | resignCall (addrs : List String)
  | confirmCall (addrs : List String)
  | typoCall (a : Value)
  | oracleCall (a : Value)
  | cacheUpdate (adds : List Rec) (removes : List Value)
  deriving DecidableEq, Repr

/-- The external collaborators, as deterministic response functions:
`sendPreferences.get` (non-throwing), `autoPinPrimaryKeys.resign` and
`.confirm`, `REGEX_EMAIL.test`, `checkTypoEmails`, `keyCache.isInvalid`
(asynchronous, may reject) and the `extendPGP` helper (may throw). -/
structure Collab where
  getPrefs : List Value → Prefs
  resign : List String → Bool
  confirm : List String → Bool
  regexTest : Value → Bool
  checkTypo : Value → Bool
  isInvalid : Value → Except String Bool
  extendPGP : Rec → Option PrefRec → Except String Rec

/-- The result object returned by `sync`. -/
structure SyncResult where
  addressesToRemove : List Value
  failedAddresses : List Value
  deriving DecidableEq, Repr

/-- Addresses of the preference-map entries whose `isVerified` is falsy. -/
def unverifiedAddrs (m : Prefs) : List String :=
  (m.filter (fun p => !truthy p.2.isVerified)).map (fun p => p.1)

/-- Addresses of the preference-map entries whose `primaryPinned` is falsy. -/
def unpinnedAddrs (m : Prefs) : List String :=
  (m.filter (fun p => !truthy p.2.primaryPinned)).map (fun p => p.1)

/-- `handleInvalidSigs(preferencesMap)`: short-circuit when every entry has a
truthy `isVerified`; otherwise offer the unverified addresses to the resign
collaborator and return them unless it reports success. -/
def handleInvalidSigs (C : Collab) (m : Prefs) : List Event × List String :=
  if !(m.any (fun p => !truthy p.2.isVerified)) then
    ([], [])
  else
    let invalidSigs := unverifiedAddrs m
    let resigned := C.resign invalidSigs
    ([Event.resignCall invalidSigs], if resigned then [] else invalidSigs)

/-- `handleMissingPrimaryKeys(preferencesMap)`: short-circuit when every entry
has a truthy `primaryPinned`; otherwise offer the unpinned addresses to the
auto-pin collaborator and return them unless it reports success. -/
def handleMissingPrimaryKeys (C : Collab) (m : Prefs) : List Event × List String :=
  if !(m.any (fun p => !truthy p.2.primaryPinned)) then
    ([], [])
  else
    let missingPrimaryKeys := unpinnedAddrs m
    let pinned := C.confirm missingPrimaryKeys
    ([Event.confirmCall missingPrimaryKeys], if pinned then [] else missingPrimaryKeys)

/-- `handleInvalid(sendPreferencesMap)`: invalid signatures first, then
missing primary keys, concatenated. -/
def handleInvalid (C : Collab) (m : Prefs) : List Event × List String :=
  let sigs := handleInvalidSigs C m
  let keys := handleMissingPrimaryKeys C m
  (sigs.1 ++ keys.1, sigs.2 ++ keys.2)

/-- `extendFromCache(list)`: per input record, either mark `loadCryptInfo`
when the address is not cached, or return the cached record overridden by the
input record's own fields. -/
def extendFromCache (c : Cache) (list : List Rec) : List Rec :=
  list.map (fun email =>
    match cacheGet c (propKey (getField email "Address")) with
    | none => email ++ [("loadCryptInfo", Value.vbool true)]
    | some cached => cached ++ email)

/-- `extendInvalid(email)`: attach
`invalid: !REGEX_EMAIL.test(Address) || checkTypoEmails(Address) || (await keyCache.isInvalid(Address))`
with JavaScript short-circuit evaluation: the typo checker runs only when the
regex accepts, the oracle only when the typo checker also said no. -/
def extendInvalid (C : Collab) (email : Rec) : List Event × Except String Rec :=
  let A := getField email "Address"
  if !(C.regexTest A) then
    ([], Except.ok (email ++ [("invalid", Value.vbool true)]))
  else if C.checkTypo A then
    ([Event.typoCall A], Except.ok (email ++ [("invalid", Value.vbool true)]))
  else
    match C.isInvalid A with
    | Except.ok b => ([Event.typoCall A, Event.oracleCall A], Except.ok (email ++ [("invalid", Value.vbool b)]))
    | Except.error e => ([Event.typoCall A, Event.oracleCall A], Except.error e)

/-- `extendAsync(emails, sendPreferencesMap)`: per email,
`extendInvalid(extendPGP(email, sendPreferencesMap[email.Address]))`, joined
over all emails; any throw fails the whole join. -/
def extendAsync (C : Collab) (emails : List Rec) (m : Prefs) : List Event × Except String (List Rec) :=
  match emails with
  | [] => ([], Except.ok [])
  | email :: rest =>
    match C.extendPGP email (prefsLookup m (getField email "Address")) with
    | Except.error e => ([], Except.error e)
    | Except.ok pgpEmail =>
      match extendInvalid C pgpEmail with
      | (t, Except.error e) => (t, Except.error e)
      | (t, Except.ok extended) =>
        match extendAsync C rest m with
        | (t2, Except.error e) => (t ++ t2, Except.error e)
        | (t2, Except.ok restExtended) => (t ++ t2, Except.ok (extended :: restExtended))

/-- The cache key under which a record is stored: `CACHE[email.Address]`. -/
def addKeyOf (e : Rec) : String :=
  propKey (getField e "Address")

/-- `updateCache(emailsToAdd, emailsToRemove)`: upsert each added record
keyed by its address, then delete each removed address. -/
def updateCache (c : Cache) (emailsToAdd : List Rec) (emailsToRemove : List Value) : Cache :=
  let c1 := emailsToAdd.foldl (fun acc email => cacheSet acc (addKeyOf email) email) c
  emailsToRemove.foldl (fun acc address => cacheDel acc (propKey address)) c1

/-- `_.map(emails, 'Address')`. -/
def addressesOf (emails : List Rec) : List Value :=
  emails.map (fun email => getField email "Address")

/-- `_.difference(xs, ys)` between a list of values and a list of string
keys: keep the values (order and duplicates preserved) that equal no key
under strict (SameValueZero) comparison. -/
def differenceSV (xs : List Value) (ys : List String) : List Value :=
  xs.filter (fun a => !(ys.any (fun k => a == Value.vstr k)))

/-- `failedAddresses` of a `sync` call: requested addresses minus the keys of
the preference map returned for them. -/
def failedOf (C : Collab) (emails : List Rec) : List Value :=
  differenceSV (addressesOf emails) ((C.getPrefs (addressesOf emails)).map (fun p => p.1))

/-- `addressesToRemove` of a `sync` call: the policy-resolver output
concatenated with the fetch failures. -/
def removeOf (C : Collab) (emails : List Rec) : List Value :=
  ((handleInvalid C (C.getPrefs (addressesOf emails))).2).map Value.vstr ++ failedOf C emails

/-- The input emails surviving the removal filter
(`emails.filter(({Address}) => !addressesToRemove.includes(Address))`). -/
def filteredOf (C : Collab) (emails : List Rec) : List Rec :=
  emails.filter (fun email => !((removeOf C emails).contains (getField email "Address")))

/-- `sync(emails)`: fetch preferences, compute the failed and to-remove
addresses, enrich the surviving emails, update the cache, and return the
result.  Returns the event trace, the cache state after the call (unchanged
when enrichment throws, since the exception aborts before `updateCache`), and
the result or the propagated error. -/
def sync (C : Collab) (cache : Cache) (emails : List Rec) : List Event × Cache × Except String SyncResult :=
  let prefs := C.getPrefs (addressesOf emails)
  let t0 := Event.getPrefsCall (addressesOf emails) :: (handleInvalid C prefs).1
  match extendAsync C (filteredOf C emails) prefs with
  | (t2, Except.error e) => (t0 ++ t2, cache, Except.error e)
  | (t2, Except.ok extendedEmails) =>
    (t0 ++ t2 ++ [Event.cacheUpdate extendedEmails (removeOf C emails)],
     updateCache cache extendedEmails (removeOf C emails),
     Except.ok { addressesToRemove := removeOf C emails, failedAddresses := failedOf C emails })

/-! Basic lemmas about field access and the cache operations. -/

lemma foldl_getField_eq (k : String) (s : Rec) (x : Value) :
    s.foldl (fun acc p => if p.1 == k then p.2 else acc) x
      = if hasField s k then getField s k else x := by
  induction s generalizing x with
  | nil => simp [hasField, getField]
  | cons p t ih =>
    have hg : getField (p :: t) k
        = t.foldl (fun acc q => if q.1 == k then q.2 else acc)
            (if p.1 == k then p.2 else Value.undef) := rfl
    have hh : hasField (p :: t) k = ((p.1 == k) || hasField t k) := by
      simp [hasField]
    rw [List.foldl_cons, ih, hg, ih, hh]
    by_cases hp : p.1 = k
    · by_cases ht : hasField t k <;> simp [hp, ht]
    · have hpb : (p.1 == k) = false := by simp [hp]
      by_cases ht : hasField t k <;> simp [hpb, ht]

lemma getField_append (r s : Rec) (k : String) :
    getField (r ++ s) k = if hasField s k then getField s k else getField r k := by
  have h : getField (r ++ s) k
      = s.foldl (fun acc p => if p.1 == k then p.2 else acc) (getField r k) := by
    simp [getField, List.foldl_append]
  rw [h, foldl_getField_eq]

lemma cacheGet_cons (p : String × Rec) (t : Cache) (q : String) :
    cacheGet (p :: t) q = if p.1 == q then some p.2 else cacheGet t q := by
  cases hp : p.1 == q <;> simp [cacheGet, List.find?_cons, hp]

lemma cacheGet_append (c d : Cache) (q : String) :
    cacheGet (c ++ d) q
      = match cacheGet c q with
        | some v => some v
        | none => cacheGet d q := by
  induction c with
  | nil => rfl
  | cons p t ih =>
    rw [List.cons_append, cacheGet_cons, cacheGet_cons]
    by_cases hp : (p.1 == q) = true
    · simp [hp]
    · simp only [hp, Bool.false_eq_true, if_false]
      exact ih

lemma cacheGet_eq_none_of_no_key (c : Cache) (k : String)
    (h : c.any (fun p => p.1 == k) = false) : cacheGet c k = none := by
  induction c with
  | nil => rfl
  | cons p t ih =>
    simp only [List.any_cons, Bool.or_eq_false_iff] at h
    rw [cacheGet_cons]
    simp only [h.1, Bool.false_eq_true, if_false]
    exact ih h.2

lemma cacheGet_map_replace (c : Cache) (k q : String) (v : Rec) (hq : q ≠ k) :
    cacheGet (c.map (fun p => if p.1 == k then (k, v) else p)) q = cacheGet c q := by
  induction c with
  | nil => rfl
  | cons p t ih =>
    rw [List.map_cons, cacheGet_cons, cacheGet_cons]
    have hkq : (k == q) = false := by
      simp only [beq_eq_false_iff_ne, ne_eq]
      exact fun hh => hq hh.symm
    by_cases hp : (p.1 == k) = true
    · have hp1 : p.1 = k := by simpa using hp
      have hpq : (p.1 == q) = false := by rw [hp1]; exact hkq
      simp only [hp, if_true, hpq, Bool.false_eq_true, if_false, hkq]
      exact ih
    · have hp1 : ((if p.1 == k then (k, v) else p) : String × Rec) = p := by
        simp [hp]
      rw [hp1]
      by_cases hpq : (p.1 == q) = true
      · simp [hpq]
      · simp only [hpq, Bool.false_eq_true, if_false]
        exact ih

lemma cacheGet_map_replace_hit (c : Cache) (k : String) (v : Rec)
    (h : c.any (fun p => p.1 == k) = true) :
    cacheGet (c.map (fun p => if p.1 == k then (k, v) else p)) k = some v := by
  induction c with
  | nil => simp at h
  | cons p t ih =>
    rw [List.map_cons, cacheGet_cons]
    by_cases hp : (p.1 == k) = true
    · simp [hp]
    · have hstep : ((if p.1 == k then (k, v) else p) : String × Rec) = p := by
        simp [hp]
      rw [hstep]
      simp only [hp, Bool.false_eq_true, if_false]
      simp only [List.any_cons, hp, Bool.false_or] at h
      exact ih h

lemma cacheGet_cacheSet (c : Cache) (k : String) (v : Rec) (q : String) :
    cacheGet (cacheSet c k v) q = if q = k then some v else cacheGet c q := by
  unfold cacheSet
  by_cases h : c.any (fun p => p.1 == k) = true
  · rw [if_pos h]
    by_cases hq : q = k
    · subst hq; rw [if_pos rfl]; exact cacheGet_map_replace_hit c q v h
    · rw [if_neg hq]; exact cacheGet_map_replace c k q v hq
  · rw [if_neg h, cacheGet_append]
    by_cases hq : q = k
    · subst hq
      rw [cacheGet_eq_none_of_no_key c q (Bool.of_not_eq_true h)]
      rw [if_pos rfl, cacheGet_cons]
      simp
    · have hkq : (k == q) = false := by
        simp only [beq_eq_false_iff_ne, ne_eq]
        exact fun hh => hq hh.symm
      rw [if_neg hq]
      cases hc : cacheGet c q with
      | some v2 => simp
      | none =>
        simp only [cacheGet_cons, hkq, Bool.false_eq_true, if_false]
        rfl

lemma cacheGet_cacheDel (c : Cache) (k q : String) :
    cacheGet (cacheDel c k) q = if q = k then none else cacheGet c q := by
  induction c with
  | nil => simp [cacheGet, cacheDel]
  | cons p t ih =>
    by_cases hp : (p.1 == k) = true
    · have hstep : cacheDel (p :: t) k = cacheDel t k := by
        simp [cacheDel, List.filter_cons, hp]
      rw [hstep, ih]
      by_cases hq : q = k
      · simp [hq]
      · have hp1 : p.1 = k := by simpa using hp
        have hpq : (p.1 == q) = false := by
          simp only [beq_eq_false_iff_ne, ne_eq, hp1]
          exact fun hh => hq hh.symm
        rw [if_neg hq, if_neg hq, cacheGet_cons]
        simp [hpq]
    · have hstep : cacheDel (p :: t) k = p :: cacheDel t k := by
        simp [cacheDel, List.filter_cons, hp]
      rw [hstep, cacheGet_cons, cacheGet_cons, ih]
      by_cases hpq : (p.1 == q) = true
      · have hq1 : p.1 = q := by simpa using hpq
        have hqk : ¬(q = k) := fun hh => hp (by simp [hq1, hh])
        simp [hpq, hqk]
      · simp only [hpq, Bool.false_eq_true, if_false]

/-- The last record in `adds` that would be stored under cache key `k`. -/
def lastAddFor (adds : List Rec) (k : String) : Option Rec :=
  adds.foldl (fun acc e => if addKeyOf e == k then some e else acc) none

lemma foldl_lastAdd_eq (k : String) (adds : List Rec) (acc : Option Rec) :
    adds.foldl (fun a e => if addKeyOf e == k then some e else a) acc
      = match lastAddFor adds k with
        | some e => some e
        | none => acc := by
  induction adds generalizing acc with
  | nil => simp [lastAddFor]
  | cons e rest ih =>
    have hl : lastAddFor (e :: rest) k
        = rest.foldl (fun a x => if addKeyOf x == k then some x else a)
            (if addKeyOf e == k then some e else none) := rfl
    rw [List.foldl_cons, ih, hl, ih]
    cases hr : lastAddFor rest k with
    | some x => rfl
    | none => by_cases he : addKeyOf e = k <;> simp [he]

lemma cacheGet_foldSet (adds : List Rec) (c : Cache) (q : String) :
    cacheGet (adds.foldl (fun acc e => cacheSet acc (addKeyOf e) e) c) q
      = match lastAddFor adds q with
        | some e => some e
        | none => cacheGet c q := by
  induction adds generalizing c with
  | nil => simp [lastAddFor]
  | cons e rest ih =>
    have hl : lastAddFor (e :: rest) q
        = match lastAddFor rest q with
          | some x => some x
          | none => if addKeyOf e == q then some e else none := by
      have : lastAddFor (e :: rest) q
          = rest.foldl (fun a x => if addKeyOf x == q then some x else a)
              (if addKeyOf e == q then some e else none) := rfl
      rw [this, foldl_lastAdd_eq]
    rw [List.foldl_cons, ih, hl]
    cases hr : lastAddFor rest q with
    | some x => rfl
    | none =>
      rw [cacheGet_cacheSet]
      by_cases he : addKeyOf e = q
      · simp [he]
      · have h1 : (addKeyOf e == q) = false := by simp [he]
        have h2 : ¬(q = addKeyOf e) := fun hh => he hh.symm
        simp [h1, h2]

lemma cacheGet_foldDel (removes : List Value) (c : Cache) (q : String) :
    cacheGet (removes.foldl (fun acc a => cacheDel acc (propKey a)) c) q
      = if removes.any (fun a => propKey a == q) then none else cacheGet c q := by
  induction removes generalizing c with
  | nil => simp
  | cons a rest ih =>
    rw [List.foldl_cons, ih, cacheGet_cacheDel]
    by_cases ha : propKey a = q
    · have h1 : (propKey a == q) = true := by simp [ha]
      by_cases hr : rest.any (fun x => propKey x == q) = true <;>
        simp [List.any_cons, h1, hr, ha]
    · have h1 : (propKey a == q) = false := by simp [ha]
      have h2 : ¬(q = propKey a) := fun hh => ha hh.symm
      by_cases hr : rest.any (fun x => propKey x == q) = true <;>
        simp [List.any_cons, h1, hr, h2]

theorem cacheGet_updateCache (c : Cache) (adds : List Rec) (removes : List Value) (q : String) :
    cacheGet (updateCache c adds removes) q
      = if removes.any (fun a => propKey a == q) then none
        else match lastAddFor adds q with
          | some e => some e
          | none => cacheGet c q := by
  unfold updateCache
  rw [cacheGet_foldDel, cacheGet_foldSet]

lemma lastAdd_foldl_some (k : String) (adds : List Rec) (v : Rec) :
    ∃ e, adds.foldl (fun a x => if addKeyOf x == k then some x else a) (some v) = some e := by
  induction adds generalizing v with
  | nil => exact ⟨v, rfl⟩
  | cons x rest ih =>
    rw [List.foldl_cons]
    by_cases hx : (addKeyOf x == k) = true
    · rw [if_pos hx]; exact ih x
    · rw [if_neg hx]; exact ih v

lemma lastAddFor_isSome_of_mem (adds : List Rec) (k : String) (x : Rec)
    (hx : x ∈ adds) (hk : addKeyOf x = k) : ∃ e, lastAddFor adds k = some e := by
  revert hx
  induction adds with
  | nil => intro hx; cases hx
  | cons y rest ih =>
    intro hx
    unfold lastAddFor
    rw [List.foldl_cons]
    cases List.mem_cons.mp hx with
    | inl h1 =>
      subst h1
      rw [if_pos (by simp [hk])]
      exact lastAdd_foldl_some k rest x
    | inr h2 =>
      by_cases hy : (addKeyOf y == k) = true
      · rw [if_pos hy]; exact lastAdd_foldl_some k rest y
      · rw [if_neg hy]; exact ih h2

lemma lastAdd_foldl_mem (k : String) (adds : List Rec) (acc : Option Rec) (e : Rec)
    (h : adds.foldl (fun a x => if addKeyOf x == k then some x else a) acc = some e) :
    acc = some e ∨ (e ∈ adds ∧ addKeyOf e = k) := by
  induction adds generalizing acc with
  | nil => exact Or.inl h
  | cons x rest ih =>
    rw [List.foldl_cons] at h
    cases ih _ h with
    | inl h1 =>
      by_cases hx : (addKeyOf x == k) = true
      · rw [if_pos hx] at h1
        have hxe : x = e := by injection h1
        subst hxe
        exact Or.inr ⟨List.mem_cons_self x rest, by simpa using hx⟩
      · rw [if_neg hx] at h1
        exact Or.inl h1
    | inr h2 => exact Or.inr ⟨List.mem_cons_of_mem _ h2.1, h2.2⟩

lemma lastAddFor_mem (adds : List Rec) (k : String) (e : Rec)
    (h : lastAddFor adds k = some e) : e ∈ adds ∧ addKeyOf e = k := by
  cases lastAdd_foldl_mem k adds none e h with
  | inl h1 => cases h1
  | inr h2 => exact h2

/-! Inversion of a successful `sync` call. -/

lemma sync_ok_elim (C : Collab) (cache : Cache) (emails : List Rec)
    (t : List Event) (c2 : Cache) (res : SyncResult)
    (h : sync C cache emails = (t, c2, Except.ok res)) :
    res.addressesToRemove = removeOf C emails
      ∧ res.failedAddresses = failedOf C emails
      ∧ ∃ t2 ext,
          extendAsync C (filteredOf C emails) (C.getPrefs (addressesOf emails)) = (t2, Except.ok ext)
          ∧ c2 = updateCache cache ext (removeOf C emails) := by
  simp only [sync] at h
  cases hx : extendAsync C (filteredOf C emails) (C.getPrefs (addressesOf emails)) with
  | mk t2 r =>
    rw [hx] at h
    cases r with
    | error e => simp [Prod.ext_iff] at h
    | ok ext =>
      simp only [Prod.mk.injEq] at h
      obtain ⟨-, hcache, hres⟩ := h
      have hres2 : ({ addressesToRemove := removeOf C emails,
                      failedAddresses := failedOf C emails } : SyncResult) = res := by
        injection hres
      refine ⟨?_, ?_, t2, ext, rfl, hcache.symm⟩
      · rw [← hres2]
      · rw [← hres2]

/-! Concrete inputs used by the witnesses. -/

/-- A preference record passing both policy checks. -/
def okPref : PrefRec := { primaryPinned := Value.vbool true, isVerified := Value.vbool true }

/-- Benign collaborators: preferences known for address `a` only, every check
passing. -/
def sampleCollab : Collab where
  getPrefs := fun _ => [("a", okPref)]
  resign := fun _ => true
  confirm := fun _ => true
  regexTest := fun _ => true
  checkTypo := fun _ => false
  isInvalid := fun _ => Except.ok false
  extendPGP := fun r _ => Except.ok r

/-- Two requested recipients; only the first has preferences. -/
def sampleEmails : List Rec := [[("Address", Value.vstr "a")], [("Address", Value.vstr "b")]]

/-- The record stored for `a` after the sample `sync` call. -/
def sampleStored : Rec := [("Address", Value.vstr "a"), ("invalid", Value.vbool false)]

/-- Result of the sample `sync` call. -/
def sampleRes : SyncResult :=
  { addressesToRemove := [Value.vstr "b"], failedAddresses := [Value.vstr "b"] }

/-- Trace of the sample `sync` call. -/
def sampleTrace : List Event :=
  [Event.getPrefsCall [Value.vstr "a", Value.vstr "b"],
   Event.typoCall (Value.vstr "a"), Event.oracleCall (Value.vstr "a"),
   Event.cacheUpdate [sampleStored] [Value.vstr "b"]]

lemma sampleSync_eq :
    sync sampleCollab [] sampleEmails
      = (sampleTrace, [("a", sampleStored)], Except.ok sampleRes) := by
  rfl

/-- C1: for every `sync(emails)` call, the `failedAddresses` of the returned
result is, as a set, exactly the requested addresses minus the keys of the
preference map returned by the preference service for that call. -/
theorem sync_failedAddresses_diff (C : Collab) (cache : Cache) (emails : List Rec)
    (t : List Event) (c2 : Cache) (res : SyncResult)
    (h : sync C cache emails = (t, c2, Except.ok res)) (a : Value) :
    a ∈ res.failedAddresses
      ↔ a ∈ addressesOf emails
        ∧ ∀ k ∈ (C.getPrefs (addressesOf emails)).map (fun p => p.1), a ≠ Value.vstr k := by
  obtain ⟨-, hf, -⟩ := sync_ok_elim C cache emails t c2 res h
  rw [hf]
  unfold failedOf differenceSV
  rw [List.mem_filter]
  simp [List.any_eq_true]

/-- Witness for C1 at the sample call. -/
theorem sync_failedAddresses_diff_w :
    Value.vstr "b" ∈ sampleRes.failedAddresses
      ↔ Value.vstr "b" ∈ addressesOf sampleEmails
        ∧ ∀ k ∈ (sampleCollab.getPrefs (addressesOf sampleEmails)).map (fun p => p.1),
            Value.vstr "b" ≠ Value.vstr k :=
  sync_failedAddresses_diff sampleCollab [] sampleEmails sampleTrace
    [("a", sampleStored)] sampleRes sampleSync_eq (Value.vstr "b")

/-- C2: `addressesToRemove` is the policy-resolver output concatenated with
`failedAddresses`, in that order, so `failedAddresses` is always contained in
`addressesToRemove` (duplicates possible when the two overlap). -/
theorem sync_addressesToRemove_concat (C : Collab) (cache : Cache) (emails : List Rec)
    (t : List Event) (c2 : Cache) (res : SyncResult)
    (h : sync C cache emails = (t, c2, Except.ok res)) :
    res.addressesToRemove
      = ((handleInvalid C (C.getPrefs (addressesOf emails))).2).map Value.vstr
          ++ res.failedAddresses
    ∧ ∀ a ∈ res.failedAddresses, a ∈ res.addressesToRemove := by
  obtain ⟨hr, hf, -⟩ := sync_ok_elim C cache emails t c2 res h
  constructor
  · rw [hr, hf]; rfl
  · intro a ha
    rw [hr]
    rw [hf] at ha
    exact List.mem_append_right _ ha

/-- Witness for C2 at the sample call. -/
theorem sync_addressesToRemove_concat_w :
    sampleRes.addressesToRemove
      = ((handleInvalid sampleCollab (sampleCollab.getPrefs (addressesOf sampleEmails))).2).map Value.vstr
          ++ sampleRes.failedAddresses
    ∧ ∀ a ∈ sampleRes.failedAddresses, a ∈ sampleRes.addressesToRemove :=
  sync_addressesToRemove_concat sampleCollab [] sampleEmails sampleTrace
    [("a", sampleStored)] sampleRes sampleSync_eq

/-- C3: the policy resolver returns signature issues concatenated with
pinning issues, in that order and not deduplicated; each component is empty
when every record passes the corresponding flag (and then the corresponding
confirmation collaborator is never invoked: no event is emitted), and
otherwise is the list of failing addresses, emptied exactly when the
collaborator reports success. -/
theorem handleInvalid_policy (C : Collab) (m : Prefs) :
    (handleInvalid C m).2
        = (handleInvalidSigs C m).2 ++ (handleMissingPrimaryKeys C m).2
    ∧ (if m.all (fun p => truthy p.2.isVerified)
        then handleInvalidSigs C m = ([], [])
        else handleInvalidSigs C m
          = ([Event.resignCall (unverifiedAddrs m)],
             if C.resign (unverifiedAddrs m) then [] else unverifiedAddrs m))
    ∧ (if m.all (fun p => truthy p.2.primaryPinned)
        then handleMissingPrimaryKeys C m = ([], [])
        else handleMissingPrimaryKeys C m
          = ([Event.confirmCall (unpinnedAddrs m)],
             if C.confirm (unpinnedAddrs m) then [] else unpinnedAddrs m)) := by
  refine ⟨rfl, ?_, ?_⟩
  · by_cases hA : (m.any fun p => !truthy p.2.isVerified) = true
    · have hAll : ¬((m.all fun p => truthy p.2.isVerified) = true) := by
        intro hall
        obtain ⟨x, hx, hxf⟩ := List.any_eq_true.mp hA
        have hxa := List.all_eq_true.mp hall x hx
        rw [hxa] at hxf
        simp at hxf
      rw [if_neg hAll]
      simp [handleInvalidSigs, hA]
    · have hA2 : (m.any fun p => !truthy p.2.isVerified) = false := Bool.of_not_eq_true hA
      have hAll : (m.all fun p => truthy p.2.isVerified) = true := by
        rw [List.all_eq_true]
        intro x hx
        cases hb : truthy x.2.isVerified
        · exact absurd (List.any_eq_true.mpr ⟨x, hx, by rw [hb]; rfl⟩) hA
        · rfl
      rw [if_pos hAll]
      simp [handleInvalidSigs, hA2]
  · by_cases hA : (m.any fun p => !truthy p.2.primaryPinned) = true
    · have hAll : ¬((m.all fun p => truthy p.2.primaryPinned) = true) := by
        intro hall
        obtain ⟨x, hx, hxf⟩ := List.any_eq_true.mp hA
        have hxa := List.all_eq_true.mp hall x hx
        rw [hxa] at hxf
        simp at hxf
      rw [if_neg hAll]
      simp [handleMissingPrimaryKeys, hA]
    · have hA2 : (m.any fun p => !truthy p.2.primaryPinned) = false := Bool.of_not_eq_true hA
      have hAll : (m.all fun p => truthy p.2.primaryPinned) = true := by
        rw [List.all_eq_true]
        intro x hx
        cases hb : truthy x.2.primaryPinned
        · exact absurd (List.any_eq_true.mpr ⟨x, hx, by rw [hb]; rfl⟩) hA
        · rfl
      rw [if_pos hAll]
      simp [handleMissingPrimaryKeys, hA2]

lemma getField_set_invalid (email : Rec) (b : Bool) :
    getField (email ++ [("invalid", Value.vbool b)]) "invalid" = Value.vbool b := by
  rw [getField_append]
  simp [hasField, getField]

/-- C4: `extendInvalid` marks a record invalid exactly when the email regex
rejects its address, the typo checker flags it, or the key-invalidity oracle
reports it invalid; the three checks short-circuit in that order, so the typo
checker is not consulted when the regex already fails, and the oracle is not
consulted when one of the first two checks already marks the address. -/
theorem extendInvalid_spec (C : Collab) (email : Rec) :
    (∀ t r, extendInvalid C email = (t, Except.ok r) →
        (getField r "invalid" = Value.vbool true
          ↔ (C.regexTest (getField email "Address") = false
              ∨ C.checkTypo (getField email "Address") = true
              ∨ C.isInvalid (getField email "Address") = Except.ok true)))
    ∧ (C.regexTest (getField email "Address") = false → (extendInvalid C email).1 = [])
    ∧ (C.regexTest (getField email "Address") = true →
        C.checkTypo (getField email "Address") = true →
        (extendInvalid C email).1 = [Event.typoCall (getField email "Address")])
    ∧ (C.regexTest (getField email "Address") = true →
        C.checkTypo (getField email "Address") = false →
        (extendInvalid C email).1
          = [Event.typoCall (getField email "Address"),
             Event.oracleCall (getField email "Address")]) := by
  cases hre : C.regexTest (getField email "Address") with
  | false =>
    have hdef : extendInvalid C email
        = ([], Except.ok (email ++ [("invalid", Value.vbool true)])) := by
      simp [extendInvalid, hre]
    refine ⟨?_, ?_, ?_, ?_⟩
    · intro t r hr
      rw [hdef] at hr
      simp only [Prod.mk.injEq] at hr
      have hr2 : r = email ++ [("invalid", Value.vbool true)] := (Except.ok.inj hr.2).symm
      rw [hr2, getField_set_invalid]
      simp
    · intro _; rw [hdef]
    · intro h1 _; cases h1
    · intro h1 _; cases h1
  | true =>
    cases hty : C.checkTypo (getField email "Address") with
    | true =>
      have hdef : extendInvalid C email
          = ([Event.typoCall (getField email "Address")],
             Except.ok (email ++ [("invalid", Value.vbool true)])) := by
        simp [extendInvalid, hre, hty]
      refine ⟨?_, ?_, ?_, ?_⟩
      · intro t r hr
        rw [hdef] at hr
        simp only [Prod.mk.injEq] at hr
        have hr2 : r = email ++ [("invalid", Value.vbool true)] := (Except.ok.inj hr.2).symm
        rw [hr2, getField_set_invalid]
        simp
      · intro hf; cases hf
      · intro _ _; rw [hdef]
      · intro _ h2; cases h2
    | false =>
      cases hor : C.isInvalid (getField email "Address") with
      | ok b =>
        have hdef : extendInvalid C email
            = ([Event.typoCall (getField email "Address"),
                Event.oracleCall (getField email "Address")],
               Except.ok (email ++ [("invalid", Value.vbool b)])) := by
          simp [extendInvalid, hre, hty, hor]
        refine ⟨?_, ?_, ?_, ?_⟩
        · intro t r hr
          rw [hdef] at hr
          simp only [Prod.mk.injEq] at hr
          have hr2 : r = email ++ [("invalid", Value.vbool b)] := (Except.ok.inj hr.2).symm
          rw [hr2, getField_set_invalid]
          simp
        · intro hf; cases hf
        · intro _ h2; cases h2
        · intro _ _; rw [hdef]
      | error e =>
        have hdef : extendInvalid C email
            = ([Event.typoCall (getField email "Address"),
                Event.oracleCall (getField email "Address")],
               Except.error e) := by
          simp [extendInvalid, hre, hty, hor]
        refine ⟨?_, ?_, ?_, ?_⟩
        · intro t r hr
          rw [hdef] at hr
          simp at hr
        · intro hf; cases hf
        · intro _ h2; cases h2
        · intro _ _; rw [hdef]

/-- Witness for C4: with the sample collaborators (regex passes, no typo),
both the typo checker and the oracle run on address `a`. -/
theorem extendInvalid_spec_w :
    (extendInvalid sampleCollab [("Address", Value.vstr "a")]).1
      = [Event.typoCall (getField [("Address", Value.vstr "a")] "Address"),
         Event.oracleCall (getField [("Address", Value.vstr "a")] "Address")] :=
  (extendInvalid_spec sampleCollab [("Address", Value.vstr "a")]).2.2.2 rfl rfl

/-- C5: `extendFromCache` is a per-record map: an uncached record passes
through with `loadCryptInfo: true` added and every other field unchanged; a
cached record is replaced by its cache entry overridden by every field the
input record carries (input wins on collisions). -/
theorem extendFromCache_spec (c : Cache) (list : List Rec) :
    (extendFromCache c list).length = list.length
    ∧ ∀ i (h : i < list.length) (h2 : i < (extendFromCache c list).length),
        (cacheGet c (propKey (getField (list.get ⟨i, h⟩) "Address")) = none →
            getField ((extendFromCache c list).get ⟨i, h2⟩) "loadCryptInfo" = Value.vbool true
            ∧ ∀ k, k ≠ "loadCryptInfo" →
                getField ((extendFromCache c list).get ⟨i, h2⟩) k
                  = getField (list.get ⟨i, h⟩) k)
        ∧ (∀ cached, cacheGet c (propKey (getField (list.get ⟨i, h⟩) "Address")) = some cached →
            ∀ k, getField ((extendFromCache c list).get ⟨i, h2⟩) k
              = if hasField (list.get ⟨i, h⟩) k then getField (list.get ⟨i, h⟩) k
                else getField cached k) := by
  constructor
  · simp [extendFromCache]
  · intro i h h2
    have hmap : (extendFromCache c list).get ⟨i, h2⟩
        = (match cacheGet c (propKey (getField (list.get ⟨i, h⟩) "Address")) with
           | none => (list.get ⟨i, h⟩) ++ [("loadCryptInfo", Value.vbool true)]
           | some cached => cached ++ (list.get ⟨i, h⟩)) := by
      simp only [extendFromCache]
      rw [List.get_map]
    constructor
    · intro hnone
      rw [hmap]
      simp only [hnone]
      constructor
      · rw [getField_append]
        simp [hasField, getField]
      · intro k hk
        rw [getField_append]
        have hnf : hasField [("loadCryptInfo", Value.vbool true)] k = false := by
          simp only [hasField, List.any_cons, List.any_nil, Bool.or_false,
            beq_eq_false_iff_ne, ne_eq]
          exact fun hh => hk hh.symm
        simp [hnf]
    · intro cached hsome k
      rw [hmap]
      simp only [hsome]
      rw [getField_append]

/-- Witness for C5: address `b` has no entry in a cache holding only `a`, so
its looked-up record carries `loadCryptInfo: true`. -/
theorem extendFromCache_spec_w :
    getField ((extendFromCache [("a", sampleStored)] sampleEmails).get
        ⟨1, by decide⟩) "loadCryptInfo" = Value.vbool true :=
  (((extendFromCache_spec [("a", sampleStored)] sampleEmails).2 1 (by decide)
      (by decide)).1 rfl).1

/-- Does the per-address enrichment task of `email` throw
(`extendPGP` throwing or `extendInvalid` rejecting)? -/
def taskFails (C : Collab) (m : Prefs) (email : Rec) : Bool :=
  match C.extendPGP email (prefsLookup m (getField email "Address")) with
  | Except.error _ => true
  | Except.ok p =>
    match (extendInvalid C p).2 with
    | Except.error _ => true
    | Except.ok _ => false

lemma extendAsync_error_of_task (C : Collab) (m : Prefs) (es : List Rec) (x : Rec)
    (hx : x ∈ es) (hf : taskFails C m x = true) :
    ∃ err t2, extendAsync C es m = (t2, Except.error err) := by
  revert hx
  induction es with
  | nil => intro hx; cases hx
  | cons e rest ih =>
    intro hx
    cases List.mem_cons.mp hx with
    | inl h1 =>
      subst h1
      unfold taskFails at hf
      cases hpgp : C.extendPGP x (prefsLookup m (getField x "Address")) with
      | error err => exact ⟨err, [], by simp [extendAsync, hpgp]⟩
      | ok p =>
        rw [hpgp] at hf
        cases hinv : extendInvalid C p with
        | mk tI rI =>
          cases rI with
          | error err => exact ⟨err, tI, by simp [extendAsync, hpgp, hinv]⟩
          | ok v => simp [hinv] at hf
    | inr h2 =>
      obtain ⟨err, t2, hrest⟩ := ih h2
      cases hpgp : C.extendPGP e (prefsLookup m (getField e "Address")) with
      | error err2 => exact ⟨err2, [], by simp [extendAsync, hpgp]⟩
      | ok p =>
        cases hinv : extendInvalid C p with
        | mk tI rI =>
          cases rI with
          | error err2 => exact ⟨err2, tI, by simp [extendAsync, hpgp, hinv]⟩
          | ok v => exact ⟨err, tI ++ t2, by simp [extendAsync, hpgp, hinv, hrest]⟩

/-- C6: when a per-address enrichment task throws, the whole `sync` call
propagates the error to its caller and the session cache is left exactly as
it was before the call (the cache update step is never reached). -/
theorem sync_error_atomic (C : Collab) (cache : Cache) (emails : List Rec) (email : Rec)
    (hmem : email ∈ filteredOf C emails)
    (hfail : taskFails C (C.getPrefs (addressesOf emails)) email = true) :
    (sync C cache emails).2.1 = cache
    ∧ ∃ err, (sync C cache emails).2.2 = Except.error err := by
  obtain ⟨err, t2, hx⟩ :=
    extendAsync_error_of_task C (C.getPrefs (addressesOf emails))
      (filteredOf C emails) email hmem hfail
  constructor
  · simp only [sync]
    rw [hx]
  · refine ⟨err, ?_⟩
    simp only [sync]
    rw [hx]

/-- Collaborators whose PGP extender always throws. -/
def failCollab : Collab :=
  { sampleCollab with extendPGP := fun _ _ => Except.error "boom" }

/-- Witness for C6: with a throwing PGP extender, `sync` propagates the error
and the prior cache entry for key `z` survives untouched. -/
theorem sync_error_atomic_w :
    (sync failCollab [("z", [])] [[("Address", Value.vstr "a")]]).2.1 = [("z", [])]
    ∧ ∃ err, (sync failCollab [("z", [])] [[("Address", Value.vstr "a")]]).2.2
        = Except.error err :=
  sync_error_atomic failCollab [("z", [])] [[("Address", Value.vstr "a")]]
    [("Address", Value.vstr "a")] (by decide) rfl

lemma sync_cache_irrelevant (C : Collab) (emails : List Rec) (c1 c2 : Cache) :
    (sync C c1 emails).1 = (sync C c2 emails).1
    ∧ (sync C c1 emails).2.2 = (sync C c2 emails).2.2 := by
  simp only [sync]
  cases hx : extendAsync C (filteredOf C emails) (C.getPrefs (addressesOf emails)) with
  | mk t2 r => cases r <;> exact ⟨rfl, rfl⟩

/-- C7: with the same input and the same collaborator responses, a second
`sync` call returns the same result as the first, and the cache after the
second call has exactly the entries it had after the first. -/
theorem sync_idempotent (C : Collab) (cache : Cache) (emails : List Rec) :
    (sync C ((sync C cache emails).2.1) emails).2.2 = (sync C cache emails).2.2
    ∧ ∀ k, cacheGet ((sync C ((sync C cache emails).2.1) emails).2.1) k
        = cacheGet ((sync C cache emails).2.1) k := by
  constructor
  · exact (sync_cache_irrelevant C emails ((sync C cache emails).2.1) cache).2
  · intro k
    simp only [sync]
    cases hx : extendAsync C (filteredOf C emails) (C.getPrefs (addressesOf emails)) with
    | mk t2 r =>
      cases r with
      | error e => rfl
      | ok ext =>
        show cacheGet (updateCache (updateCache cache ext (removeOf C emails)) ext
              (removeOf C emails)) k
            = cacheGet (updateCache cache ext (removeOf C emails)) k
        rw [cacheGet_updateCache, cacheGet_updateCache]
        by_cases hr : ((removeOf C emails).any fun a => propKey a == k) = true
        · simp [hr]
        · have hr2 : ((removeOf C emails).any fun a => propKey a == k) = false :=
            Bool.of_not_eq_true hr
          simp only [hr2, Bool.false_eq_true, if_false]
          cases hl : lastAddFor ext k <;> simp

/-- C8: a surviving record enriched with `invalid: true` is not thereby
removed: removals are insensitive to the validator collaborators, the record
is still stored by the final cache update, and an entry can only disappear
from the cache when its key is among `addressesToRemove` (policy violations
and fetch failures). -/
theorem sync_invalid_flag_not_removed (C : Collab) (cache : Cache) (emails : List Rec)
    (t2 : List Event) (ext : List Rec)
    (hx : extendAsync C (filteredOf C emails) (C.getPrefs (addressesOf emails))
        = (t2, Except.ok ext)) :
    (∀ rt ct ii ep,
        removeOf { C with regexTest := rt, checkTypo := ct, isInvalid := ii, extendPGP := ep }
            emails
          = removeOf C emails)
    ∧ (∀ e, e ∈ ext → getField e "invalid" = Value.vbool true →
        ((removeOf C emails).any fun a => propKey a == addKeyOf e) = false →
        ∃ e2, e2 ∈ ext ∧ addKeyOf e2 = addKeyOf e
          ∧ cacheGet ((sync C cache emails).2.1) (addKeyOf e) = some e2)
    ∧ (∀ k, cacheGet ((sync C cache emails).2.1) k = none →
        cacheGet cache k ≠ none →
        ((removeOf C emails).any fun a => propKey a == k) = true) := by
  have hsync : (sync C cache emails).2.1 = updateCache cache ext (removeOf C emails) := by
    simp only [sync]
    rw [hx]
  refine ⟨?_, ?_, ?_⟩
  · intro rt ct ii ep
    rfl
  · intro e he _ hnr
    rw [hsync, cacheGet_updateCache]
    simp only [hnr, Bool.false_eq_true, if_false]
    obtain ⟨e2, hl⟩ := lastAddFor_isSome_of_mem ext (addKeyOf e) e he rfl
    obtain ⟨hmem2, hkey2⟩ := lastAddFor_mem ext (addKeyOf e) e2 hl
    exact ⟨e2, hmem2, hkey2, by rw [hl]⟩
  · intro k hnone hsome
    rw [hsync, cacheGet_updateCache] at hnone
    by_cases hr : ((removeOf C emails).any fun a => propKey a == k) = true
    · exact hr
    · exfalso
      rw [Bool.of_not_eq_true hr] at hnone
      simp only [Bool.false_eq_true, if_false] at hnone
      cases hl : lastAddFor ext k with
      | some e => rw [hl] at hnone; simp at hnone
      | none => rw [hl] at hnone; exact hsome hnone

/-- Collaborators whose email regex rejects everything, so every enriched
record carries `invalid: true`. -/
def flagCollab : Collab :=
  { sampleCollab with regexTest := fun _ => false }

/-- The record enriched for address `a` under `flagCollab`. -/
def flagStored : Rec := [("Address", Value.vstr "a"), ("invalid", Value.vbool true)]

/-- Witness for C8: the record for `a`, although flagged invalid, is stored
in the cache by the sample `sync` call. -/
theorem sync_invalid_flag_not_removed_w :
    ∃ e2, e2 ∈ [flagStored] ∧ addKeyOf e2 = addKeyOf flagStored
      ∧ cacheGet ((sync flagCollab [] sampleEmails).2.1) (addKeyOf flagStored) = some e2 :=
  (sync_invalid_flag_not_removed flagCollab [] sampleEmails [] [flagStored] rfl).2.1
    flagStored (by decide) rfl rfl

/-- C9: a cache update that stores record `r` for address `A` (and does not
remove `A`), followed by a lookup of a record for address `A`, yields exactly
the stored record, with no `loadCryptInfo` flag set. -/
theorem updateCache_then_lookup (cache : Cache) (adds : List Rec) (removes : List Value)
    (r : Rec) (A : String)
    (hA : getField r "Address" = Value.vstr A)
    (hlast : lastAddFor adds A = some r)
    (hrem : (removes.any fun a => propKey a == A) = false)
    (hflag : getField r "loadCryptInfo" = Value.undef) :
    extendFromCache (updateCache cache adds removes) [[("Address", Value.vstr A)]]
      = [r ++ [("Address", Value.vstr A)]]
    ∧ (∀ k, getField (r ++ [("Address", Value.vstr A)]) k = getField r k)
    ∧ getField (r ++ [("Address", Value.vstr A)]) "loadCryptInfo" = Value.undef := by
  have hkey : propKey (getField ([("Address", Value.vstr A)] : Rec) "Address") = A := by
    simp [getField, propKey]
  have hc : cacheGet (updateCache cache adds removes) A = some r := by
    rw [cacheGet_updateCache]
    simp only [hrem, Bool.false_eq_true, if_false]
    rw [hlast]
  have hall : ∀ k, getField (r ++ [("Address", Value.vstr A)]) k = getField r k := by
    intro k
    rw [getField_append]
    by_cases hk : k = "Address"
    · subst hk
      have ht : hasField [("Address", Value.vstr A)] "Address" = true := by
        simp [hasField]
      rw [if_pos ht, hA]
      simp [getField]
    · have hnf : hasField [("Address", Value.vstr A)] k = false := by
        simp only [hasField, List.any_cons, List.any_nil, Bool.or_false,
          beq_eq_false_iff_ne, ne_eq]
        exact fun hh => hk hh.symm
      simp [hnf]
  refine ⟨?_, hall, by rw [hall]; exact hflag⟩
  unfold extendFromCache
  rw [List.map_cons, List.map_nil, hkey, hc]

/-- Witness for C9 at the sample stored record. -/
theorem updateCache_then_lookup_w :
    extendFromCache (updateCache [] [sampleStored] []) [[("Address", Value.vstr "a")]]
      = [sampleStored ++ [("Address", Value.vstr "a")]]
    ∧ (∀ k, getField (sampleStored ++ [("Address", Value.vstr "a")]) k
        = getField sampleStored k)
    ∧ getField (sampleStored ++ [("Address", Value.vstr "a")]) "loadCryptInfo"
        = Value.undef :=
  updateCache_then_lookup [] [sampleStored] [] sampleStored "a" rfl rfl rfl rfl

/-- C10: `sync` never reads the session cache: from any two starting cache
states it emits the same event trace (hence the same preference fetch,
collaborator calls, and the same cache additions and removals) and returns
the same result; the cache contents only influence `extendFromCache`. -/
theorem sync_oblivious_to_cache (C : Collab) (emails : List Rec) (c1 c2 : Cache) :
    (sync C c1 emails).1 = (sync C c2 emails).1
    ∧ (sync C c1 emails).2.2 = (sync C c2 emails).2.2 :=
  sync_cache_irrelevant C emails c1 c2

end AutocompleteSyncModel
